import Mathlib

/-!
Shallow embedding of src/PeakMatching.py (peak matching and alignment
between conditions and PTMs).

Modelling choices:
* The floating-point numbers of the source (peak positions, the cutoff,
  path scores) are exact rationals.  So that every concrete execution can
  be checked by the kernel, the executable definitions carry rationals as
  explicit numerator/denominator pairs (Frac below) whose arithmetic and
  comparisons are plain integer operations; Frac.val maps a pair to the
  rational it denotes, and the bridge theorems below prove that the pair
  operations mirror the rational ones whenever denominators are positive
  (which every pair built by the embedding has).
* A pandas NaN cell is Option.none.  A NaN compares unequal to
  everything, which the cell comparison functions reproduce.
* The grouping columns are constant inside one comparison group, so a
  peak record keeps only the columns the two matching algorithms read.
-/

/-- Rational number represented as an explicit numerator/denominator
pair, not normalized.  Every pair the embedding constructs has a
positive denominator. -/
structure Frac where
  num : ℤ
  den : ℤ
deriving DecidableEq, Repr

/-- Rational value denoted by a pair. -/
def Frac.val (a : Frac) : ℚ := (a.num : ℚ) / (a.den : ℚ)

/-- Embed an integer. -/
def Frac.ofInt (n : ℤ) : Frac := ⟨n, 1⟩

/-- Addition of pairs. -/
def Frac.add (a b : Frac) : Frac := ⟨a.num * b.den + b.num * a.den, a.den * b.den⟩

/-- Subtraction of pairs. -/
def Frac.sub (a b : Frac) : Frac := ⟨a.num * b.den - b.num * a.den, a.den * b.den⟩

/-- Multiplication of pairs. -/
def Frac.mul (a b : Frac) : Frac := ⟨a.num * b.num, a.den * b.den⟩

/-- Division of pairs. -/
def Frac.div (a b : Frac) : Frac := ⟨a.num * b.den, a.den * b.num⟩

/-- Absolute value of a pair. -/
def Frac.fabs (a : Frac) : Frac := ⟨|a.num|, |a.den|⟩

/-- Value equality of pairs (cross multiplication; exact equality of the
denoted rationals when denominators are nonzero). -/
def Frac.beq (a b : Frac) : Bool := decide (a.num * b.den = b.num * a.den)

/-- Value order of pairs (valid when denominators are positive). -/
def Frac.ble (a b : Frac) : Bool := decide (a.num * b.den ≤ b.num * a.den)

/-- Strict value order of pairs (valid when denominators are positive). -/
def Frac.blt (a b : Frac) : Bool := decide (a.num * b.den < b.num * a.den)

/-- Maximum of two pairs, as the float maximum computes it. -/
def Frac.fmax (a b : Frac) : Frac := if Frac.ble a b then b else a

/-- Sum of a list of pairs. -/
def fsum (l : List Frac) : Frac := l.foldr Frac.add (Frac.ofInt 0)

/-- Model of one row of the peak table, restricted to one comparison
group: PTM label, condition label, peak identifier and the three peak
positions. -/
structure Peak where
  ptm : String
  condition : String
  peak_id : String
  peak_apex : Frac
  peak_left : Frac
  peak_right : Frac
deriving DecidableEq, Repr

/-- Embedding of ptm_eval (lines 88-111): match flag of one joined
(global, ptm) pair.  The ptm side is Option: a left-join miss leaves NaN
in the ptm columns, every comparison on NaN is False, so the apex
condition fails and the flag is 0. -/
def ptm_eval (apex_diff_cutoff : Frac) (g : Peak) (p : Option Peak) : ℕ :=
  match p with
  | none => 0
  | some q =>
    let apex_condition :=
      Frac.blt (Frac.fabs (Frac.sub g.peak_apex q.peak_apex)) apex_diff_cutoff
    let overlap_condition :=
      ! (Frac.blt g.peak_right q.peak_left || Frac.blt q.peak_right g.peak_left)
    (if apex_condition then 1 else 0) * (if overlap_condition then 1 else 0)

/-- Lexicographic order on code points, the order of the string order
(spelled out on the character lists so the kernel can compute it). -/
def charListLe : List Char → List Char → Bool
  | [], _ => true
  | _ :: _, [] => false
  | c :: cs, d :: ds =>
    if c.toNat < d.toNat then true
    else if d.toNat < c.toNat then false
    else charListLe cs ds

/-- String comparison used for sorting channel and condition labels. -/
def strLe (a b : String) : Bool := charListLe a.data b.data

/-- Insert into a sorted list of strings. -/
def insertSorted (x : String) : List String → List String
  | [] => [x]
  | y :: ys => if strLe x y then x :: y :: ys else y :: insertSorted x ys

/-- Sort a list of strings (groupby sorts its keys). -/
def sortStrings (l : List String) : List String := l.foldr insertSorted []

/-- PTM channels iterated by ptm_matching: the group's non-global labels
plus, per lines 156-160, every dataset-wide label that is neither in the
group nor "global"; groupby('ptm') then walks them sorted and
deduplicated. -/
def ptmChannels (ptms : List String) (t : List Peak) : List String :=
  let groupPtms := (t.filter (fun r => decide (r.ptm ≠ "global"))).map (fun r => r.ptm)
  let extra := ptms.filter (fun p => !(groupPtms.contains p) && decide (p ≠ "global"))
  (sortStrings (groupPtms ++ extra)).dedup

/-- Rows of one PTM channel lying in one condition. -/
def condChanRows (t : List Peak) (c cond : String) : List Peak :=
  t.filter (fun r => decide (r.ptm = c) && decide (r.condition = cond))

/-- Joined partners of one global peak after the left merge on the group
key and condition (line 171): every same-condition channel row, or a
single NaN row when there is none (also covering the skeleton rows
synthesized for a channel absent from the group, whose data cells are
all NaN). -/
def joinedPairs (t : List Peak) (c : String) (g : Peak) : List (Option Peak) :=
  let rows := condChanRows t c g.condition
  if rows.isEmpty then [none] else rows.map some

/-- Global rows collapsed with g by the summary groupby on
(group key, peak_apex, condition) (lines 179/190): same apex value and
same condition. -/
def keyGlobals (globals : List Peak) (a : Frac) (cond : String) : List Peak :=
  globals.filter (fun r => Frac.beq r.peak_apex a && decide (r.condition = cond))

/-- Match count aggregated onto key (a, cond): the sum of the match
flags over all joined pairs of all global rows collapsed onto the key. -/
def keyCount (cutoff : Frac) (t : List Peak) (c : String)
    (globals : List Peak) (a : Frac) (cond : String) : ℕ :=
  ((keyGlobals globals a cond).map
    (fun g => ((joinedPairs t c g).map (ptm_eval cutoff g)).sum)).sum

/-- Matched channel-peak identifiers aggregated onto key (a, cond):
ids of the matching joined pairs, semicolon-joined, with the None
entries of non-matching pairs dropped by the filter. -/
def keyIds (cutoff : Frac) (t : List Peak) (c : String)
    (globals : List Peak) (a : Frac) (cond : String) : String :=
  String.intercalate ";"
    ((keyGlobals globals a cond).flatMap (fun g =>
      (joinedPairs t c g).filterMap (fun p =>
        match p with
        | some q => if ptm_eval cutoff g (some q) = 1 then some q.peak_id else none
        | none => none)))

/-- Per-channel summary columns carried by the left merge back onto the
global rows (lines 182/193): the count column (named after the channel)
and the matched-id column, one entry per global row, looked up by the
row's (apex, condition) key. -/
def chanCol (cutoff : Frac) (t : List Peak) (globals : List Peak)
    (c : String) : List (ℕ × String) :=
  globals.map (fun g =>
    (keyCount cutoff t c globals g.peak_apex g.condition,
     keyIds cutoff t c globals g.peak_apex g.condition))

/-- Result table of ptm_matching: the global rows plus the channel-named
summary columns present on the final dataframe. -/
structure PtmTable where
  rows : List Peak
  chanCols : List (String × List (ℕ × String))
deriving DecidableEq, Repr

/-- The channel loop of ptm_matching (lines 165-197): each iteration
rebuilds final_global_df as a fresh merge of global_df with that
channel's summary, overwriting the previous iteration's value. -/
def ptmLoop (cutoff : Frac) (t : List Peak) (globals : List Peak) :
    List String → Option PtmTable → Option PtmTable
  | [], final => final
  | c :: cs, _ =>
    ptmLoop cutoff t globals cs (some ⟨globals, [(c, chanCol cutoff t globals c)]⟩)

/-- Embedding of ptm_matching (lines 129-198): None for a group without
global rows; otherwise the table left by the channel loop, or the
NameError the return statement raises when there was no channel at all
and final_global_df was never assigned. -/
def ptm_matching (cutoff : Frac) (ptms : List String) (t : List Peak) :
    Except String (Option PtmTable) :=
  let global_df := t.filter (fun r => decide (r.ptm = "global"))
  if global_df.isEmpty then .ok none
  else
    match ptmLoop cutoff t global_df (ptmChannels ptms t) none with
    | none => .error "name final_global_df is not defined"
    | some final => .ok (some final)

/-- Embedding of path_mean_dist (lines 202-217) on rational values:
subtract the mean of the non-missing entries, replace the missing
differences by the threshold, square. -/
def path_mean_dist (threshold : ℚ) (path : List (Option ℚ)) : List ℚ :=
  let present := path.filterMap id
  let m := present.sum / (present.length : ℚ)
  path.map (fun s =>
    match s with
    | some a => (a - m) ^ 2
    | none => threshold ^ 2)

/-- Embedding of path_score (lines 219-231) on rational values:
1 / (mean of path_mean_dist + 1). -/
def path_score (threshold : ℚ) (path : List (Option ℚ)) : ℚ :=
  let d := path_mean_dist threshold path
  let v := d.sum / (d.length : ℚ)
  1 / (v + 1)

/-- path_mean_dist performed on the pair representation (the computation
the executable loop runs; path_mean_distF_val below proves it denotes
path_mean_dist). -/
def path_mean_distF (threshold : Frac) (path : List (Option Frac)) : List Frac :=
  let present := path.filterMap id
  let m := Frac.div (fsum present) (Frac.ofInt present.length)
  path.map (fun s =>
    match s with
    | some a => Frac.mul (Frac.sub a m) (Frac.sub a m)
    | none => Frac.mul threshold threshold)

/-- path_score performed on the pair representation (path_scoreF_val
below proves it denotes path_score). -/
def path_scoreF (threshold : Frac) (path : List (Option Frac)) : Frac :=
  let d := path_mean_distF threshold path
  let v := Frac.div (fsum d) (Frac.ofInt d.length)
  Frac.div (Frac.ofInt 1) (Frac.add v (Frac.ofInt 1))

/-- Cartesian product of a list of lists; the first list varies slowest. -/
def cartProd {α : Type} : List (List α) → List (List α)
  | [] => [[]]
  | l :: ls => l.flatMap (fun x => (cartProd ls).map (x :: ·))

/-- Embedding of np.array(np.meshgrid(*lists)).T.reshape(-1, n): rows
hold one entry per input list, in list order; the rows are enumerated in
lexicographic order of the index tuple (i_n, ..., i_3, i_1, i_2),
because meshgrid's default indexing swaps the first two axes and .T
reverses all axes before the C-order reshape. -/
def meshRows {α : Type} (ls : List (List α)) : List (List α) :=
  match ls with
  | [] => []
  | [l] => l.map (fun x => [x])
  | l1 :: l2 :: rest =>
    (cartProd (rest.reverse ++ [l1, l2])).map (fun r =>
      let k := rest.length
      r.drop k ++ (r.take k).reverse)

/-- NaN-style equality of two optional cells under a value comparison:
equal exactly when both are present and compare equal. -/
def cellEq {α : Type} (eqv : α → α → Bool) : Option α → Option α → Bool
  | some a, some b => eqv a b
  | _, _ => false

/-- Row indices produced by np.where(pool == key)[0]: one entry per
matching cell, in row-major order, starting at row index i. -/
def matchPositionsFrom {α : Type} (eqv : α → α → Bool) (key : List (Option α)) :
    ℕ → List (List (Option α)) → List ℕ
  | _, [] => []
  | i, r :: rs =>
    ((r.zip key).filter (fun c => cellEq eqv c.1 c.2)).map (fun _ => i) ++
      matchPositionsFrom eqv key (i + 1) rs

/-- Embedding of np.delete(pool, kill, axis=0): keep the rows whose
position (counted from i) is not listed in kill. -/
def removeRows {α : Type} (kill : List ℕ) :
    ℕ → List (List (Option α)) → List (List (Option α))
  | _, [] => []
  | i, r :: rs =>
    if kill.contains i then removeRows kill (i + 1) rs
    else r :: removeRows kill (i + 1) rs

/-- One pool deletion of peak_alignment (lines 305-306):
np.delete(pool, np.where(pool == key)[0], axis=0). -/
def removeMatching {α : Type} (eqv : α → α → Bool)
    (pool : List (List (Option α))) (key : List (Option α)) :
    List (List (Option α)) :=
  removeRows (matchPositionsFrom eqv key 0 pool) 0 pool

/-- Does a row share at least one positionwise cell with key under the
value comparison? -/
def rowShares {α : Type} (eqv : α → α → Bool) (r key : List (Option α)) : Bool :=
  (r.zip key).any (fun c => cellEq eqv c.1 c.2)

/-- Maximum of a list of score pairs, folded as .max() computes it. -/
def maxOf (l : List Frac) (a : Frac) : Frac := l.foldl Frac.fmax a

/-- State of the greedy extraction loop: the candidate index pool, the
apex-value pool scored against, and the accepted index paths so far. -/
structure AState where
  idx : List (List (Option ℕ))
  apx : List (List (Option Frac))
  acc : List (List (Option ℕ))
deriving DecidableEq, Repr

/-- Outcome of the extraction loop.  stopped records the break on an
all-missing top apex row, together with the state at the break and the
selection position; exhausted is the for-range running out; crashed
models a numpy exception (max of an empty pool, or a top position beyond
the end of the index pool, which the desynchronization of the two pools
can produce). -/
inductive AOut where
  | stopped (final : AState) (k : ℕ)
  | exhausted (final : AState)
  | crashed (msg : String)
deriving DecidableEq, Repr

/-- Accepted paths of an outcome, when the loop did not crash. -/
def AOut.paths : AOut → Option (List (List (Option ℕ)))
  | .stopped s _ => some s.acc
  | .exhausted s => some s.acc
  | .crashed _ => none

/-- Embedding of the extraction loop of peak_alignment (lines 294-306):
score the apex pool, take the first position attaining the maximal
score, break if the apex row there is entirely missing, otherwise accept
the index-pool row at that position and delete from each pool,
independently, every row sharing a positionwise cell with the row taken
from that same pool. -/
def alignLoop (threshold : Frac) : ℕ → AState → AOut
  | 0, s => .exhausted s
  | fuel + 1, s =>
    match s.apx with
    | [] => .crashed "zero-size array reduction"
    | a0 :: arest =>
      let scores := (a0 :: arest).map (path_scoreF threshold)
      let m := maxOf ((a0 :: arest).map (path_scoreF threshold)) (path_scoreF threshold a0)
      let k := scores.findIdx (fun x => Frac.beq x m)
      let top := (a0 :: arest).getD k []
      if top.all (fun c => c.isNone) then .stopped s k
      else
        match s.idx.get? k with
        | none => .crashed "index out of bounds"
        | some y =>
          alignLoop threshold fuel
            ⟨removeMatching (fun a b => decide (a = b)) s.idx y,
             removeMatching Frac.beq s.apx top, s.acc ++ [y]⟩

/-- Whole run of peak_alignment on one group.  condIdx lists, per known
condition in sorted order, the index-column values of the group's rows
in that condition (none for the skeleton row synthesized for a condition
absent from the group); the code appends one NaN to every per-condition
list, builds the meshgrid combination space, materializes the apex
values (fill_values leaves NaN cells in place), and runs the loop with
the for-range bound len(peak_combinations). -/
def alignRun (threshold : Frac) (apexOf : ℕ → Frac)
    (condIdx : List (List (Option ℕ))) : AOut :=
  let index_lists := condIdx.map (fun l => l ++ [none])
  let index_combinations := meshRows index_lists
  let peak_combinations :=
    index_combinations.map (fun r => r.map (fun c => c.map apexOf))
  alignLoop threshold index_combinations.length
    ⟨index_combinations, peak_combinations, []⟩

/-- Result of peak_alignment: the accepted index paths, or the numpy
exception the run raises. -/
def peak_alignment (threshold : Frac) (apexOf : ℕ → Frac)
    (condIdx : List (List (Option ℕ))) :
    Except String (List (List (Option ℕ))) :=
  match alignRun threshold apexOf condIdx with
  | .stopped s _ => .ok s.acc
  | .exhausted s => .ok s.acc
  | .crashed msg => .error msg

/-- Per-condition index lists built by peak_alignment's preamble (lines
272-286) from a group table whose rows carry index values 0,1,...
(reset_index in matching_i): conditions are the sorted union of those in
the table and the dataset-wide list, a condition present in the table
contributes the indices of its rows in row order, and a condition absent
from the table contributes the single NaN index of its skeleton row (the
grouping columns are constant in a group, so drop_duplicates leaves one
skeleton row per condition). -/
def tableCondIdx (conds : List String) (rows : List Peak) : List (List (Option ℕ)) :=
  let present := rows.map (fun r => r.condition)
  let allConds := (sortStrings (present ++ conds.filter (fun c => !(present.contains c)))).dedup
  allConds.map (fun c =>
    if present.contains c then
      (rows.enum.filter (fun p => decide (p.2.condition = c))).map (fun p => some p.1)
    else [none])

/-- Embedding of condition_matching (lines 310-334), restricted to the
alignment result: the output dataframe holds one row per accepted path
(the attribute columns filled per path slot are not modelled; no claim
reads them).  The threshold is the same global the scoring uses. -/
def condition_matching (threshold : Frac) (conds : List String) (tbl : PtmTable) :
    Except String (List (List (Option ℕ))) :=
  let rows := tbl.rows
  let apexOf : ℕ → Frac := fun i => ((rows.get? i).map Peak.peak_apex).getD (Frac.ofInt 0)
  peak_alignment threshold apexOf (tableCondIdx conds rows)

/-- Embedding of matching_i (lines 338-355): ptm_matching, then None for
a group with no global peaks, else condition_matching on the result. -/
def matching_i (threshold : Frac) (ptms conds : List String) (t : List Peak) :
    Except String (Option (List (List (Option ℕ)))) :=
  match ptm_matching threshold ptms t with
  | .error e => .error e
  | .ok none => .ok none
  | .ok (some tbl) => (condition_matching threshold conds tbl).map some

/-- Concatenation over per-group results as pd.concat performs it on the
mapped matching_i outputs: None contributions are dropped. -/
def concatContribs {α : Type} (rs : List (Option (List α))) : List α :=
  (rs.filterMap id).flatten

/-- Decidable equality of run results, so concrete executions can be
checked by the kernel. -/
instance {ε α : Type} [DecidableEq ε] [DecidableEq α] : DecidableEq (Except ε α) :=
  fun a b =>
    match a, b with
    | .ok x, .ok y =>
      if h : x = y then .isTrue (by rw [h]) else .isFalse (fun hc => h (Except.ok.inj hc))
    | .error x, .error y =>
      if h : x = y then .isTrue (by rw [h])
      else .isFalse (fun hc => h (Except.error.inj hc))
    | .ok _, .error _ => .isFalse (fun hc => Except.noConfusion hc)
    | .error _, .ok _ => .isFalse (fun hc => Except.noConfusion hc)

/-- Proposition: two index rows assign one common peak row index to one
common condition slot. -/
def SharesIdx (p q : List (Option ℕ)) : Prop :=
  ∃ j v, p.get? j = some (some v) ∧ q.get? j = some (some v)

/-! ### Concrete inputs for witnesses and counterexamples -/

/-- Build a peak with integer positions. -/
def mkPeak (ptm cond id : String) (a l r : ℤ) : Peak :=
  ⟨ptm, cond, id, Frac.ofInt a, Frac.ofInt l, Frac.ofInt r⟩

def wApex : ℕ → Frac := fun _ => Frac.ofInt 10

def wCond : List (List (Option ℕ)) := [[some 0, some 1], [some 2]]

def e7Apex : ℕ → Frac := fun i => Frac.ofInt ([10, 10, 50, 90].getD i 0)

def e7Cond : List (List (Option ℕ)) := [[some 0], [some 1, some 2, some 3]]

def c5Apex : ℕ → Frac := fun i => Frac.ofInt ([0, 2, 4, 4, 4, 6].getD i 0)

def c5Cond : List (List (Option ℕ)) :=
  [[some 0, some 1], [some 2, some 3], [some 4, some 5]]

def c2T : List Peak :=
  [mkPeak "global" "c1" "g1" 10 8 12, mkPeak "ph" "c1" "p1" 10 8 12,
   mkPeak "ub" "c1" "u1" 10 8 12]

def c8g1 : Peak := mkPeak "global" "c1" "g1" 10 0 1

def c8g2 : Peak := mkPeak "global" "c1" "g2" 10 9 11

def c8p : Peak := mkPeak "ph" "c1" "p1" 10 9 11

def c8T : List Peak := [c8g1, c8g2, c8p]

def c8wG : Peak := mkPeak "global" "c1" "g1" 10 8 12

def c8wT : List Peak := [c8wG, mkPeak "ph" "c1" "p1" 50 48 52]

def c9T : List Peak := [mkPeak "ph" "c1" "p1" 10 8 12]

def c1g : Peak := mkPeak "global" "c1" "g1" 1 0 2

def c1q : Peak := mkPeak "ph" "c1" "p1" 0 0 2


/-! ### Deletion characterization -/

theorem mpf_le {α : Type} (eqv : α → α → Bool) (key : List (Option α)) :
    ∀ (pool : List (List (Option α))) (i j : ℕ),
      j ∈ matchPositionsFrom eqv key i pool → i ≤ j := by
  intro pool
  induction pool with
  | nil => intro i j h; simp [matchPositionsFrom] at h
  | cons r rs ih =>
    intro i j h
    rcases List.mem_append.mp h with h | h
    · rcases List.mem_map.mp h with ⟨c, _, rfl⟩
      exact Nat.le_refl _
    · exact Nat.le_of_succ_le (ih (i + 1) j h)

theorem mpf_head_mem {α : Type} (eqv : α → α → Bool) (key : List (Option α))
    (r : List (Option α)) (rs : List (List (Option α))) (i : ℕ) :
    (i ∈ matchPositionsFrom eqv key i (r :: rs)) ↔ rowShares eqv r key = true := by
  constructor
  · intro h
    rcases List.mem_append.mp h with h | h
    · rcases List.mem_map.mp h with ⟨c, hc, _⟩
      exact List.any_eq_true.mpr ⟨c, (List.mem_filter.mp hc).1, (List.mem_filter.mp hc).2⟩
    · exact absurd (mpf_le eqv key rs (i + 1) i h) (by omega)
  · intro h
    rcases List.any_eq_true.mp h with ⟨c, hc, hcc⟩
    exact List.mem_append.mpr (Or.inl (List.mem_map.mpr ⟨c, List.mem_filter.mpr ⟨hc, hcc⟩, rfl⟩))

theorem removeRows_congr {α : Type} (k1 k2 : List ℕ) :
    ∀ (pool : List (List (Option α))) (i : ℕ),
      (∀ x, i ≤ x → (k1.contains x = k2.contains x)) →
      removeRows k1 i pool = removeRows k2 i pool := by
  intro pool
  induction pool with
  | nil => intro i _; rfl
  | cons r rs ih =>
    intro i h
    simp only [removeRows, h i (Nat.le_refl i)]
    by_cases hc : k2.contains i = true
    · simp only [hc, if_true]
      exact ih (i + 1) (fun x hx => h x (by omega))
    · simp only [Bool.not_eq_true] at hc
      simp only [hc, Bool.false_eq_true, if_false]
      rw [ih (i + 1) (fun x hx => h x (by omega))]

theorem removeMatching_eq_filter {α : Type} (eqv : α → α → Bool)
    (pool : List (List (Option α))) (key : List (Option α)) :
    removeMatching eqv pool key = pool.filter (fun r => !(rowShares eqv r key)) := by
  suffices h : ∀ (pool : List (List (Option α))) (i : ℕ),
      removeRows (matchPositionsFrom eqv key i pool) i pool =
        pool.filter (fun r => !(rowShares eqv r key)) from h pool 0
  intro pool
  induction pool with
  | nil => intro i; rfl
  | cons r rs ih =>
    intro i
    have htail : removeRows (matchPositionsFrom eqv key i (r :: rs)) (i + 1) rs =
        removeRows (matchPositionsFrom eqv key (i + 1) rs) (i + 1) rs := by
      apply removeRows_congr
      intro x hx
      have h1 : (x ∈ matchPositionsFrom eqv key i (r :: rs)) ↔
          (x ∈ matchPositionsFrom eqv key (i + 1) rs) := by
        constructor
        · intro hm
          rcases List.mem_append.mp hm with hm | hm
          · rcases List.mem_map.mp hm with ⟨c, _, rfl⟩
            omega
          · exact hm
        · intro hm
          exact List.mem_append.mpr (Or.inr hm)
      by_cases h2 : x ∈ matchPositionsFrom eqv key (i + 1) rs
      · have hx1 : (matchPositionsFrom eqv key i (r :: rs)).contains x = true := by
          simp only [List.contains, List.elem_iff]
          exact h1.mpr h2
        have hx2 : (matchPositionsFrom eqv key (i + 1) rs).contains x = true := by
          simp only [List.contains, List.elem_iff]
          exact h2
        rw [hx1, hx2]
      · have hx1 : (matchPositionsFrom eqv key i (r :: rs)).contains x = false := by
          simp only [List.contains, Bool.eq_false_iff, ne_eq, List.elem_iff]
          exact fun hm => h2 (h1.mp hm)
        have hx2 : (matchPositionsFrom eqv key (i + 1) rs).contains x = false := by
          simp only [List.contains, Bool.eq_false_iff, ne_eq, List.elem_iff]
          exact h2
        rw [hx1, hx2]
    by_cases hs : rowShares eqv r key = true
    · have hc : (matchPositionsFrom eqv key i (r :: rs)).contains i = true := by
        simp only [List.contains, List.elem_iff]
        exact (mpf_head_mem eqv key r rs i).mpr hs
      simp only [removeRows, hc, if_true, List.filter_cons, hs, Bool.not_true,
        Bool.false_eq_true, if_false]
      rw [htail, ih (i + 1)]
    · have hc : (matchPositionsFrom eqv key i (r :: rs)).contains i = false := by
        simp only [List.contains, Bool.eq_false_iff, ne_eq, List.elem_iff]
        exact fun hm => hs ((mpf_head_mem eqv key r rs i).mp hm)
      simp only [removeRows, hc, Bool.false_eq_true, if_false, List.filter_cons]
      simp only [Bool.not_eq_true] at hs
      simp only [hs, Bool.not_false, if_true]
      rw [htail, ih (i + 1)]

/-! ### Shared-slot characterization and loop invariants -/

theorem sharesIdx_symm {p q : List (Option ℕ)} (h : SharesIdx p q) : SharesIdx q p := by
  rcases h with ⟨j, v, h1, h2⟩
  exact ⟨j, v, h2, h1⟩

theorem rowShares_iff_sharesIdx (p q : List (Option ℕ)) :
    rowShares (fun a b => decide (a = b)) p q = true ↔ SharesIdx p q := by
  induction p generalizing q with
  | nil =>
    simp only [rowShares, List.zip_nil_left, List.any_nil, Bool.false_eq_true, false_iff]
    rintro ⟨j, v, h1, _⟩
    simp at h1
  | cons a as ih =>
    cases q with
    | nil =>
      simp only [rowShares, List.zip_nil_right, List.any_nil, Bool.false_eq_true, false_iff]
      rintro ⟨j, v, _, h2⟩
      simp at h2
    | cons b bs =>
      have hstep : rowShares (fun a b => decide (a = b)) (a :: as) (b :: bs) = true ↔
          (cellEq (fun a b => decide (a = b)) a b = true ∨
            rowShares (fun a b => decide (a = b)) as bs = true) := by
        simp [rowShares, List.zip_cons_cons, List.any_cons]
      rw [hstep]
      constructor
      · intro h
        rcases h with h | h
        · match a, b, h with
          | some x, some y, h =>
            have hxy : x = y := by simpa [cellEq] using h
            exact ⟨0, x, by simp, by simp [hxy]⟩
        · rcases (ih bs).mp h with ⟨j, v, h1, h2⟩
          exact ⟨j + 1, v, by simpa using h1, by simpa using h2⟩
      · rintro ⟨j, v, h1, h2⟩
        cases j with
        | zero =>
          simp only [List.get?_cons_zero, Option.some.injEq] at h1 h2
          exact Or.inl (by simp [h1, h2, cellEq])
        | succ j =>
          simp only [List.get?_cons_succ] at h1 h2
          exact Or.inr ((ih bs).mpr ⟨j, v, h1, h2⟩)

theorem alignLoop_paths_pairwise (t : Frac) :
    ∀ (fuel : ℕ) (s : AState),
      s.acc.Pairwise (fun p q => ¬ SharesIdx p q) →
      (∀ r ∈ s.idx, ∀ a ∈ s.acc, ¬ SharesIdx r a) →
      ∀ paths, (alignLoop t fuel s).paths = some paths →
        paths.Pairwise (fun p q => ¬ SharesIdx p q) := by
  intro fuel
  induction fuel with
  | zero =>
    intro s h1 _ paths hp
    simp only [alignLoop, AOut.paths, Option.some.injEq] at hp
    exact hp ▸ h1
  | succ n ih =>
    intro s h1 h2 paths hp
    simp only [alignLoop] at hp
    cases hax : s.apx with
    | nil =>
      rw [hax] at hp
      simp [AOut.paths] at hp
    | cons a0 arest =>
      rw [hax] at hp
      simp only at hp
      split at hp
      · simp only [AOut.paths, Option.some.injEq] at hp
        exact hp ▸ h1
      · split at hp
        · simp [AOut.paths] at hp
        · rename_i htop y hy
          have hymem : y ∈ s.idx := List.get?_mem hy
          have haccy : ∀ a ∈ s.acc, ¬ SharesIdx a y :=
            fun a ha hs => h2 y hymem a ha (sharesIdx_symm hs)
          apply ih _ _ _ paths hp
          · rw [List.pairwise_append]
            refine ⟨h1, List.pairwise_singleton _ _, ?_⟩
            intro a ha b hb
            rw [List.mem_singleton] at hb
            exact hb ▸ haccy a ha
          · intro r hr a ha
            rw [removeMatching_eq_filter] at hr
            have hr2 := List.mem_filter.mp hr
            rcases List.mem_append.mp ha with ha | ha
            · exact h2 r hr2.1 a ha
            · rw [List.mem_singleton] at ha
              subst ha
              intro hsh
              have := (rowShares_iff_sharesIdx r a).mpr hsh
              rw [this] at hr2
              simp at hr2

theorem alignLoop_stopped_top (t : Frac) :
    ∀ (fuel : ℕ) (s s' : AState) (k : ℕ),
      alignLoop t fuel s = .stopped s' k →
      (s'.apx.getD k []).all (fun c => c.isNone) = true := by
  intro fuel
  induction fuel with
  | zero => intro s s' k h; simp [alignLoop] at h
  | succ n ih =>
    intro s s' k h
    simp only [alignLoop] at h
    cases hax : s.apx with
    | nil => rw [hax] at h; simp at h
    | cons a0 arest =>
      rw [hax] at h
      simp only at h
      split at h
      · rename_i htop
        rcases h with ⟨rfl, rfl⟩
        rw [hax]
        exact htop
      · split at h
        · simp at h
        · exact ih _ s' k h

theorem alignLoop_acc_length (t : Frac) :
    ∀ (fuel : ℕ) (s : AState) (paths : List (List (Option ℕ))),
      (alignLoop t fuel s).paths = some paths →
      paths.length ≤ s.acc.length + fuel := by
  intro fuel
  induction fuel with
  | zero =>
    intro s paths hp
    simp only [alignLoop, AOut.paths, Option.some.injEq] at hp
    simp [← hp]
  | succ n ih =>
    intro s paths hp
    simp only [alignLoop] at hp
    cases hax : s.apx with
    | nil => rw [hax] at hp; simp [AOut.paths] at hp
    | cons a0 arest =>
      rw [hax] at hp
      simp only at hp
      split at hp
      · simp only [AOut.paths, Option.some.injEq] at hp
        rw [← hp]
        omega
      · split at hp
        · simp [AOut.paths] at hp
        · have := ih _ paths hp
          simp only [List.length_append, List.length_singleton] at this
          omega

/-! ### Size of the combination space -/

theorem cartProd_length {α : Type} :
    ∀ ls : List (List α), (cartProd ls).length = (ls.map List.length).prod := by
  intro ls
  induction ls with
  | nil => rfl
  | cons l ls ih =>
    simp only [cartProd, List.map_cons, List.prod_cons]
    induction l with
    | nil => simp
    | cons x xs ihx =>
      simp only [List.flatMap_cons, List.length_append, List.length_map, ih,
        List.length_cons] at ihx ⊢
      rw [ihx]
      ring

theorem meshRows_length {α : Type} (ls : List (List α)) :
    (meshRows ls).length = if ls.isEmpty then 0 else (ls.map List.length).prod := by
  match ls with
  | [] => rfl
  | [l] => simp [meshRows]
  | l1 :: l2 :: rest =>
    simp only [meshRows, List.length_map, cartProd_length, List.isEmpty_cons,
      Bool.false_eq_true, if_false]
    have hperm : (rest.reverse ++ [l1, l2]).Perm (l1 :: l2 :: rest) := by
      have h1 : (rest.reverse ++ [l1, l2]).Perm (rest ++ [l1, l2]) :=
        (List.reverse_perm rest).append_right _
      have h2 : (rest ++ [l1, l2]).Perm ([l1, l2] ++ rest) := List.perm_append_comm
      exact h1.trans h2
    exact (hperm.map List.length).prod_eq

/-! ### Path score algebra -/

theorem path_mean_dist_sum_split (t m : ℚ) (path : List (Option ℚ)) :
    (path.map (fun s => match s with | some a => (a - m) ^ 2 | none => t ^ 2)).sum =
      ((path.filterMap id).map (fun a => (a - m) ^ 2)).sum +
        (path.countP (fun s => s.isNone)) * t ^ 2 := by
  induction path with
  | nil => simp
  | cons s rest ih =>
    cases s with
    | none =>
      have h1 : List.filterMap id ((none : Option ℚ) :: rest) = List.filterMap id rest := by
        simp
      have h2 : List.countP (fun s => s.isNone) ((none : Option ℚ) :: rest) =
          List.countP (fun s => s.isNone) rest + 1 := by
        simp [List.countP_cons]
      simp only [List.map_cons, List.sum_cons, ih, h1, h2]
      push_cast
      ring
    | some a =>
      have h1 : List.filterMap id (some a :: rest) = a :: List.filterMap id rest := by
        simp
      have h2 : List.countP (fun s => s.isNone) (some a :: rest) =
          List.countP (fun s => s.isNone) rest := by
        simp [List.countP_cons]
      simp only [List.map_cons, List.sum_cons, ih, h1, h2]
      ring

theorem filterMap_id_of_all_some (path : List (Option ℚ)) (a : ℚ)
    (h : ∀ s ∈ path, s = some a) :
    path.filterMap id = List.replicate path.length a := by
  induction path with
  | nil => simp
  | cons s rest ih =>
    have hs : s = some a := h s (List.mem_cons_self _ _)
    subst hs
    simp only [List.length_cons, List.replicate_succ]
    rw [show List.filterMap id (some a :: rest) = a :: List.filterMap id rest by simp,
      ih (fun x hx => h x (List.mem_cons_of_mem _ hx))]

/-- Claim C6: the score of a path is 1 / (m + 1), where m averages the
squared per-slot deviations, a present slot deviating from the mean of
the present slots and a missing slot deviating by the threshold; a path
with every slot present and all apexes equal scores exactly 1. -/
theorem path_score_formula (t : ℚ) (path : List (Option ℚ)) (hne : path ≠ []) :
    path_score t path =
      1 / ((((path.filterMap id).map
          (fun a => (a - (path.filterMap id).sum / ((path.filterMap id).length : ℚ)) ^ 2)).sum +
        (path.countP (fun s => s.isNone)) * t ^ 2) / (path.length : ℚ) + 1) ∧
    (∀ a : ℚ, (∀ s ∈ path, s = some a) → path_score t path = 1) := by
  constructor
  · simp only [path_score, path_mean_dist, List.length_map]
    rw [path_mean_dist_sum_split]
  · intro a h
    have hlen : (path.length : ℚ) ≠ 0 := by
      have hlen0 : path.length ≠ 0 := fun h0 => hne (List.length_eq_zero.mp h0)
      exact Nat.cast_ne_zero.mpr hlen0
    have hfm := filterMap_id_of_all_some path a h
    have hmean : (path.filterMap id).sum / ((path.filterMap id).length : ℚ) = a := by
      rw [hfm]
      simp only [List.sum_replicate, List.length_replicate, nsmul_eq_mul]
      field_simp
    have hdist : path_mean_dist t path = List.replicate path.length 0 := by
      simp only [path_mean_dist, hmean]
      have : ∀ s ∈ path, (fun s => match s with
          | some b => (b - a) ^ 2
          | none => t ^ 2) s = 0 := by
        intro s hs
        rw [h s hs]
        simp
      calc path.map _ = path.map (fun _ => (0 : ℚ)) := List.map_congr_left this
        _ = List.replicate path.length 0 := List.map_const' _ _
    simp only [path_score, hdist, List.sum_replicate, List.length_replicate,
      smul_zero, zero_div]
    norm_num

/-- Claim C10: scores are strictly positive and at most 1; a fully
missing path scores 1 / (threshold^2 + 1). -/
theorem path_score_bounds (t : ℚ) (path : List (Option ℚ)) (hne : path ≠ []) :
    0 < path_score t path ∧ path_score t path ≤ 1 ∧
      ((∀ s ∈ path, s = none) → path_score t path = 1 / (t ^ 2 + 1)) := by
  have hlen : (0 : ℚ) < (path.length : ℚ) := by
    exact_mod_cast List.length_pos.mpr hne
  have hnn : 0 ≤ (path_mean_dist t path).sum := by
    apply List.sum_nonneg
    intro x hx
    simp only [path_mean_dist, List.mem_map] at hx
    rcases hx with ⟨s, _, rfl⟩
    cases s <;> positivity
  have hlen2 : ((path_mean_dist t path).length : ℚ) = (path.length : ℚ) := by
    simp [path_mean_dist]
  have hv : 0 ≤ (path_mean_dist t path).sum / ((path_mean_dist t path).length : ℚ) := by
    rw [hlen2]
    positivity
  refine ⟨?_, ?_, ?_⟩
  · simp only [path_score]
    positivity
  · simp only [path_score]
    rw [div_le_one (by linarith)]
    linarith
  · intro h
    have hdist : path_mean_dist t path = List.replicate path.length (t ^ 2) := by
      simp only [path_mean_dist]
      have : ∀ s ∈ path, (fun s => match s with
          | some b => (b - (path.filterMap id).sum / ((path.filterMap id).length : ℚ)) ^ 2
          | none => t ^ 2) s = t ^ 2 := by
        intro s hs
        rw [h s hs]
      calc path.map _ = path.map (fun _ => t ^ 2) := List.map_congr_left this
        _ = List.replicate path.length (t ^ 2) := List.map_const' _ _
    simp only [path_score, hdist, List.sum_replicate, List.length_replicate, nsmul_eq_mul]
    have heq : ((path.length : ℚ) * t ^ 2) / (path.length : ℚ) = t ^ 2 := by
      rw [mul_comm, mul_div_assoc, div_self (ne_of_gt hlen), mul_one]
    rw [heq]

/-! ### Pair representation denotes exact rational arithmetic -/

theorem Frac.val_ofInt (n : ℤ) : (Frac.ofInt n).val = (n : ℚ) := by
  simp [Frac.val, Frac.ofInt]

theorem Frac.val_add (a b : Frac) (ha : a.den ≠ 0) (hb : b.den ≠ 0) :
    (a.add b).val = a.val + b.val := by
  simp only [Frac.val, Frac.add]
  rw [div_add_div _ _ (by exact_mod_cast ha) (by exact_mod_cast hb)]
  push_cast
  ring_nf

theorem Frac.val_sub (a b : Frac) (ha : a.den ≠ 0) (hb : b.den ≠ 0) :
    (a.sub b).val = a.val - b.val := by
  simp only [Frac.val, Frac.sub]
  rw [div_sub_div _ _ (by exact_mod_cast ha) (by exact_mod_cast hb)]
  push_cast
  ring_nf

theorem Frac.val_mul (a b : Frac) : (a.mul b).val = a.val * b.val := by
  simp only [Frac.val, Frac.mul]
  push_cast
  rw [div_mul_div_comm]

theorem Frac.val_div (a b : Frac) : (a.div b).val = a.val / b.val := by
  simp only [Frac.val, Frac.div]
  rw [div_eq_mul_inv (a := (a.num : ℚ) / a.den), inv_div, div_mul_div_comm]
  push_cast
  ring_nf

theorem Frac.val_fabs (a : Frac) : (a.fabs).val = |a.val| := by
  simp only [Frac.val, Frac.fabs]
  rw [abs_div]
  push_cast
  ring_nf

theorem Frac.beq_iff_val (a b : Frac) (ha : a.den ≠ 0) (hb : b.den ≠ 0) :
    Frac.beq a b = true ↔ a.val = b.val := by
  simp only [Frac.beq, decide_eq_true_eq, Frac.val]
  rw [div_eq_div_iff (by exact_mod_cast ha) (by exact_mod_cast hb)]
  constructor
  · intro h
    exact_mod_cast h
  · intro h
    exact_mod_cast h

theorem Frac.blt_iff_val (a b : Frac) (ha : 0 < a.den) (hb : 0 < b.den) :
    Frac.blt a b = true ↔ a.val < b.val := by
  simp only [Frac.blt, decide_eq_true_eq, Frac.val]
  rw [div_lt_div_iff (by exact_mod_cast ha) (by exact_mod_cast hb)]
  constructor
  · intro h
    exact_mod_cast h
  · intro h
    exact_mod_cast h

theorem Frac.ble_iff_val (a b : Frac) (ha : 0 < a.den) (hb : 0 < b.den) :
    Frac.ble a b = true ↔ a.val ≤ b.val := by
  simp only [Frac.ble, decide_eq_true_eq, Frac.val]
  rw [div_le_div_iff (by exact_mod_cast ha) (by exact_mod_cast hb)]
  constructor
  · intro h
    exact_mod_cast h
  · intro h
    exact_mod_cast h

/-- Claim C1: for a joined pair with both peaks present, the match flag
is 1 exactly when the apex distance is strictly below the cutoff and the
closed [left, right] intervals are not disjoint; an apex distance
exactly equal to the cutoff gives 0. -/
theorem ptm_eval_spec (c : Frac) (g q : Peak)
    (hc : 0 < c.den) (hga : 0 < g.peak_apex.den) (hqa : 0 < q.peak_apex.den)
    (hgl : 0 < g.peak_left.den) (hgr : 0 < g.peak_right.den)
    (hql : 0 < q.peak_left.den) (hqr : 0 < q.peak_right.den) :
    (ptm_eval c g (some q) = 1 ↔
      (|g.peak_apex.val - q.peak_apex.val| < c.val ∧
        ¬ (g.peak_right.val < q.peak_left.val ∨ g.peak_left.val > q.peak_right.val))) ∧
    (|g.peak_apex.val - q.peak_apex.val| = c.val → ptm_eval c g (some q) = 0) := by
  have hsubden : (g.peak_apex.sub q.peak_apex).den ≠ 0 := by
    simp only [Frac.sub]
    positivity
  have habsden : 0 < ((g.peak_apex.sub q.peak_apex).fabs).den := by
    simp only [Frac.fabs, Frac.sub]
    have h1 : g.peak_apex.den * q.peak_apex.den ≠ 0 := by positivity
    exact abs_pos.mpr h1
  have hapex : Frac.blt ((g.peak_apex.sub q.peak_apex).fabs) c = true ↔
      |g.peak_apex.val - q.peak_apex.val| < c.val := by
    rw [Frac.blt_iff_val _ _ habsden hc, Frac.val_fabs,
      Frac.val_sub _ _ (ne_of_gt hga) (ne_of_gt hqa)]
  have hov1 : Frac.blt g.peak_right q.peak_left = true ↔
      g.peak_right.val < q.peak_left.val := Frac.blt_iff_val _ _ hgr hql
  have hov2 : Frac.blt q.peak_right g.peak_left = true ↔
      q.peak_right.val < g.peak_left.val := Frac.blt_iff_val _ _ hqr hgl
  constructor
  · simp only [ptm_eval]
    constructor
    · intro h
      by_cases h1 : Frac.blt ((g.peak_apex.sub q.peak_apex).fabs) c = true
      · by_cases h2 : (! (Frac.blt g.peak_right q.peak_left ||
            Frac.blt q.peak_right g.peak_left)) = true
        · refine ⟨hapex.mp h1, ?_⟩
          rw [Bool.not_eq_true', Bool.or_eq_false_iff] at h2
          rintro (hbad | hbad)
          · rw [← hov1] at hbad
            rw [h2.1] at hbad
            exact Bool.false_ne_true hbad
          · have : q.peak_right.val < g.peak_left.val := hbad
            rw [← hov2] at this
            rw [h2.2] at this
            exact Bool.false_ne_true this
        · rw [Bool.not_eq_true] at h2
          rw [h1, h2] at h
          simp at h
      · rw [Bool.not_eq_true] at h1
        rw [h1] at h
        simp at h
    · rintro ⟨h1, h2⟩
      rw [← hapex] at h1
      have h2a : Frac.blt g.peak_right q.peak_left = false := by
        rw [Bool.eq_false_iff]
        intro hb
        exact h2 (Or.inl (hov1.mp hb))
      have h2b : Frac.blt q.peak_right g.peak_left = false := by
        rw [Bool.eq_false_iff]
        intro hb
        exact h2 (Or.inr (hov2.mp hb))
      rw [h1, h2a, h2b]
      simp
  · intro heq
    have h1 : Frac.blt ((g.peak_apex.sub q.peak_apex).fabs) c = false := by
      rw [Bool.eq_false_iff]
      intro hb
      exact absurd heq (ne_of_lt (hapex.mp hb))
    simp only [ptm_eval, h1]
    simp

/-! ### Claim theorems on the aligner -/

theorem alignRun_eq_loop (t : Frac) (apexOf : ℕ → Frac)
    (condIdx : List (List (Option ℕ))) :
    alignRun t apexOf condIdx =
      alignLoop t (meshRows (condIdx.map (fun l => l ++ [none]))).length
        ⟨meshRows (condIdx.map (fun l => l ++ [none])),
         (meshRows (condIdx.map (fun l => l ++ [none]))).map
           (fun r => r.map (fun c => c.map apexOf)), []⟩ := rfl

theorem peak_alignment_ok_paths (t : Frac) (apexOf : ℕ → Frac)
    (condIdx : List (List (Option ℕ))) (paths : List (List (Option ℕ)))
    (h : peak_alignment t apexOf condIdx = .ok paths) :
    (alignRun t apexOf condIdx).paths = some paths := by
  cases halign : alignRun t apexOf condIdx with
  | stopped s k =>
    simp only [peak_alignment, halign, Except.ok.injEq] at h
    simp [AOut.paths, h]
  | exhausted s =>
    simp only [peak_alignment, halign, Except.ok.injEq] at h
    simp [AOut.paths, h]
  | crashed m =>
    simp [peak_alignment, halign] at h

/-- Claim C4: in a returned path list, no peak row index is assigned to
one condition slot by two accepted paths. -/
theorem peak_alignment_no_peak_reuse (t : Frac) (apexOf : ℕ → Frac)
    (condIdx : List (List (Option ℕ))) (paths : List (List (Option ℕ)))
    (h : peak_alignment t apexOf condIdx = .ok paths) :
    paths.Pairwise (fun p q => ∀ j v,
      ¬ (p.get? j = some (some v) ∧ q.get? j = some (some v))) := by
  have hp := peak_alignment_ok_paths t apexOf condIdx paths h
  rw [alignRun_eq_loop] at hp
  have hpw := alignLoop_paths_pairwise t _ _ List.Pairwise.nil
    (by intro r _ a ha; simp at ha) paths hp
  refine hpw.imp ?_
  intro p q hnp j v hc
  exact hnp ⟨j, v, hc.1, hc.2⟩

/-- Amended claim C7: the extraction loop is a for-range over the size
of the combination space, and the number of accepted paths a run returns
is bounded by that size, the product over conditions of (peak count of
the condition + 1). -/
theorem peak_alignment_path_count_bound (t : Frac) (apexOf : ℕ → Frac)
    (condIdx : List (List (Option ℕ))) (paths : List (List (Option ℕ)))
    (h : peak_alignment t apexOf condIdx = .ok paths) :
    paths.length ≤ (condIdx.map (fun l => l.length + 1)).prod := by
  have hp := peak_alignment_ok_paths t apexOf condIdx paths h
  rw [alignRun_eq_loop] at hp
  have hb := alignLoop_acc_length t _ _ paths hp
  simp only [List.length_nil, zero_add] at hb
  refine hb.trans ?_
  rw [meshRows_length]
  have hmm : (condIdx.map (fun l => l ++ [none])).map List.length =
      condIdx.map (fun l => l.length + 1) := by
    rw [List.map_map]
    apply List.map_congr_left
    intro l _
    simp
  rw [hmm]
  cases condIdx with
  | nil => simp
  | cons c cs => simp

/-! ### Claim theorems on the PTM matcher -/

/-- Claim C9: a group with no global rows makes ptm_matching return the
absent result, matching_i pass it on, and the concatenation drop the
group's contribution. -/
theorem no_global_rows_skips_group (threshold : Frac) (ptms conds : List String)
    (t : List Peak) (h : t.filter (fun r => decide (r.ptm = "global")) = []) :
    ptm_matching threshold ptms t = .ok none ∧
    matching_i threshold ptms conds t = .ok none ∧
    (∀ (pre post : List (Option (List (List (Option ℕ))))),
      concatContribs (pre ++ none :: post) = concatContribs (pre ++ post)) := by
  have h1 : ptm_matching threshold ptms t = .ok none := by
    simp [ptm_matching, h]
  refine ⟨h1, ?_, ?_⟩
  · simp only [matching_i, h1]
  · intro pre post
    simp [concatContribs, List.filterMap_append]

/-- Amended claim C8: a global peak whose whole (apex, condition)
aggregation key receives no channel match gets the integer count 0 and
the empty identifier string on its output row, never a missing value;
the aggregation key collapses global peaks sharing apex and condition,
so a same-key companion's match pollutes the row otherwise. -/
theorem chanCol_zero_when_key_unmatched (cutoff : Frac) (t : List Peak)
    (globals : List Peak) (c : String) (i : ℕ) (g : Peak)
    (hg : globals.get? i = some g)
    (hnm : ∀ g' ∈ keyGlobals globals g.peak_apex g.condition,
        ∀ q ∈ condChanRows t c g'.condition, ptm_eval cutoff g' (some q) = 0) :
    (chanCol cutoff t globals c).get? i = some (0, "") := by
  simp only [chanCol, List.get?_map, hg, Option.map_some']
  have hcount : keyCount cutoff t c globals g.peak_apex g.condition = 0 := by
    apply List.sum_eq_zero
    intro x hx
    rcases List.mem_map.mp hx with ⟨g', hg', rfl⟩
    apply List.sum_eq_zero
    intro y hy
    rcases List.mem_map.mp hy with ⟨p, hp, rfl⟩
    simp only [joinedPairs] at hp
    by_cases hrows : (condChanRows t c g'.condition).isEmpty
    · rw [if_pos hrows] at hp
      rw [List.mem_singleton.mp hp]
      rfl
    · rw [if_neg hrows] at hp
      rcases List.mem_map.mp hp with ⟨q, hq, rfl⟩
      exact hnm g' hg' q hq
  have hids : keyIds cutoff t c globals g.peak_apex g.condition = "" := by
    have hflat : ((keyGlobals globals g.peak_apex g.condition).flatMap (fun g' =>
        (joinedPairs t c g').filterMap (fun p =>
          match p with
          | some q => if ptm_eval cutoff g' (some q) = 1 then some q.peak_id else none
          | none => none))) = [] := by
      apply List.bind_eq_nil.mpr
      intro g' hg'
      apply List.filterMap_eq_nil_iff.mpr
      intro p hp
      simp only [joinedPairs] at hp
      by_cases hrows : (condChanRows t c g'.condition).isEmpty
      · rw [if_pos hrows] at hp
        rw [List.mem_singleton.mp hp]
      · rw [if_neg hrows] at hp
        rcases List.mem_map.mp hp with ⟨q, hq, rfl⟩
        simp [hnm g' hg' q hq]
    simp only [keyIds, hflat]
    rfl
  rw [hcount, hids]

/-! ### Counterexamples and witnesses -/

/-- Counterexample to claim C3: on a two-condition group (peaks 0 and 1
with apex 10 in the first condition, peak 2 with apex 10 in the second,
threshold 1) the first iteration accepts [0, 2], yet the row [0, NaN] is
removed from the index pool although its vector differs from the
accepted one, and the surviving apex pool has fewer rows than the
surviving index pool, so the two pools are not kept synchronized by
identical index-based deletion. -/
theorem align_removal_not_exact_cex :
    alignRun (Frac.ofInt 1) wApex wCond =
      .stopped ⟨[[some 1, none], [none, none]],
        [[none, none]], [[some 0, some 2]]⟩ 0 ∧
    (([some 0, none] : List (Option ℕ)) ∈ meshRows (wCond.map (fun l => l ++ [none]))) ∧
    ¬ (([some 0, none] : List (Option ℕ)) ∈
        ([[some 1, none], [none, none]] : List (List (Option ℕ)))) ∧
    ([some 0, none] : List (Option ℕ)) ≠ [some 0, some 2] ∧
    ¬ (([[some 1, none], [none, none]] : List (List (Option ℕ))).length =
        ([[none, none]] : List (List (Option Frac))).length) := by
  decide

/-- Amended claim C3: after a path is accepted, the rows deleted from
the index pool are exactly those sharing at least one positionwise
non-missing index with the accepted row, and the rows deleted from the
apex pool are exactly those sharing at least one positionwise apex
value with the top apex row; whenever the accepted row has at least one
non-missing slot this deletes the accepted row itself and its exact
duplicates, but a fully missing accepted row deletes nothing, and the
pools are not synchronized by identical index positions. -/
theorem align_removal_characterization :
    (∀ (pool : List (List (Option ℕ))) (key : List (Option ℕ)),
      removeMatching (fun a b => decide (a = b)) pool key =
        pool.filter (fun r => !(rowShares (fun a b => decide (a = b)) r key))) ∧
    (∀ (pool : List (List (Option Frac))) (key : List (Option Frac)),
      removeMatching Frac.beq pool key =
        pool.filter (fun r => !(rowShares Frac.beq r key))) ∧
    (∀ (pool : List (List (Option ℕ))) (key : List (Option ℕ)),
      (∃ j v, key.get? j = some (some v)) →
      ¬ key ∈ removeMatching (fun a b => decide (a = b)) pool key) ∧
    (∀ (pool : List (List (Option ℕ))) (key : List (Option ℕ)),
      key.all (fun c => c.isNone) = true →
      removeMatching (fun a b => decide (a = b)) pool key = pool) := by
  refine ⟨fun pool key => removeMatching_eq_filter _ pool key,
    fun pool key => removeMatching_eq_filter _ pool key, ?_, ?_⟩
  · intro pool key hkey hmem
    rw [removeMatching_eq_filter] at hmem
    have hsh : rowShares (fun a b => decide (a = b)) key key = true := by
      rcases hkey with ⟨j, v, hj⟩
      exact (rowShares_iff_sharesIdx key key).mpr ⟨j, v, hj, hj⟩
    have := (List.mem_filter.mp hmem).2
    rw [hsh] at this
    simp at this
  · intro pool key hall
    rw [removeMatching_eq_filter]
    apply List.filter_eq_self.mpr
    intro r hr
    rw [Bool.not_eq_true']
    rw [Bool.eq_false_iff]
    intro hsh
    rcases (rowShares_iff_sharesIdx r key).mp hsh with ⟨j, v, _, hk⟩
    have hv : (some v : Option ℕ) ∈ key := List.get?_mem hk
    have := List.all_eq_true.mp hall _ hv
    simp at this

/-- Witness for the amended claim C3 at concrete pools: accepting
[0, 2] deletes it together with the slot-sharing row [0, NaN], while a
fully missing key deletes nothing. -/
theorem align_removal_characterization_witness :
    removeMatching (fun a b => decide (a = b))
        ([[some 0, some 2], [some 0, none], [none, none]] : List (List (Option ℕ)))
        [some 0, some 2] = [[none, none]] ∧
    ¬ ([some 0, some 2] : List (Option ℕ)) ∈
        removeMatching (fun a b => decide (a = b))
          ([[some 0, some 2], [some 0, none], [none, none]] : List (List (Option ℕ)))
          [some 0, some 2] ∧
    removeMatching (fun a b => decide (a = b))
        ([[some 0, some 2], [some 0, none], [none, none]] : List (List (Option ℕ)))
        ([none, none] : List (Option ℕ)) =
      [[some 0, some 2], [some 0, none], [none, none]] :=
  ⟨by decide,
   align_removal_characterization.2.2.1 _ _ ⟨0, 0, rfl⟩,
   align_removal_characterization.2.2.2 _ _ (by decide)⟩

set_option maxRecDepth 100000 in
/-- Claim C5, failing input: with threshold 1 and three conditions
holding peaks 0,1 (apexes 0,2), 2,3 (apexes 4,4) and 4,5 (apexes 4,6),
the duplicate apex 4 desynchronizes the pools and the run returns a
fully missing accepted path as its last element. -/
theorem peak_alignment_emits_fully_missing_path :
    peak_alignment (Frac.ofInt 1) c5Apex c5Cond =
      .ok [[none, some 2, some 4], [some 1, some 3, some 5],
           [some 0, none, none], [none, none, none]] ∧
    ([none, none, none] : List (Option ℕ)).all (fun c => c.isNone) = true := by
  decide

/-- Witness for claim C4 at a concrete input with three accepted paths. -/
theorem peak_alignment_no_peak_reuse_witness :
    peak_alignment (Frac.ofInt 1) e7Apex e7Cond =
      .ok [[some 0, some 1], [none, some 2], [none, some 3]] ∧
    ([[some 0, some 1], [none, some 2], [none, some 3]] :
        List (List (Option ℕ))).Pairwise (fun p q => ∀ j v,
      ¬ (p.get? j = some (some v) ∧ q.get? j = some (some v))) := by
  have h : peak_alignment (Frac.ofInt 1) e7Apex e7Cond =
      .ok [[some 0, some 1], [none, some 2], [none, some 3]] := by
    decide
  exact ⟨h, peak_alignment_no_peak_reuse _ _ _ _ h⟩

/-- Counterexample to claim C7's bound: the run below returns three
accepted paths while the smallest condition holds one peak, so more than
smallest + 1 = 2 paths are extracted. -/
theorem peak_alignment_exceeds_min_plus_one_cex :
    peak_alignment (Frac.ofInt 1) e7Apex e7Cond =
      .ok [[some 0, some 1], [none, some 2], [none, some 3]] ∧
    e7Cond.map (fun l => (l.filterMap id).length) = [1, 3] ∧
    ¬ (([[some 0, some 1], [none, some 2], [none, some 3]] :
        List (List (Option ℕ))).length ≤ 1 + 1) := by
  decide

/-- Witness for the amended claim C7 at a concrete input. -/
theorem peak_alignment_path_count_bound_witness :
    peak_alignment (Frac.ofInt 1) e7Apex e7Cond =
      .ok [[some 0, some 1], [none, some 2], [none, some 3]] ∧
    ([[some 0, some 1], [none, some 2], [none, some 3]] :
        List (List (Option ℕ))).length ≤
      (e7Cond.map (fun l => l.length + 1)).prod := by
  have h : peak_alignment (Frac.ofInt 1) e7Apex e7Cond =
      .ok [[some 0, some 1], [none, some 2], [none, some 3]] := by
    decide
  exact ⟨h, peak_alignment_path_count_bound _ _ _ _ h⟩

/-- Witness for claim C1: apex distance exactly at the cutoff gives no
match. -/
theorem ptm_eval_spec_witness :
    |(c1g.peak_apex).val - (c1q.peak_apex).val| = (Frac.ofInt 1).val ∧
    ptm_eval (Frac.ofInt 1) c1g (some c1q) = 0 := by
  have hv : |(c1g.peak_apex).val - (c1q.peak_apex).val| = (Frac.ofInt 1).val := by
    simp [c1g, c1q, mkPeak, Frac.val, Frac.ofInt]
  exact ⟨hv, (ptm_eval_spec (Frac.ofInt 1) c1g c1q (by decide) (by decide) (by decide)
    (by decide) (by decide) (by decide) (by decide)).2 hv⟩

/-- Witness for claim C6. -/
theorem path_score_formula_witness :
    path_score 1 [some 2, some 2] = 1 :=
  (path_score_formula 1 [some 2, some 2] (by decide)).2 2 (by decide)

/-- Witness for claim C10. -/
theorem path_score_bounds_witness :
    0 < path_score 1 [(none : Option ℚ)] ∧
    path_score 1 [(none : Option ℚ)] ≤ 1 ∧
    path_score 1 [(none : Option ℚ)] = 1 / ((1 : ℚ) ^ 2 + 1) := by
  have h := path_score_bounds 1 [(none : Option ℚ)] (by decide)
  exact ⟨h.1, h.2.1, h.2.2 (by decide)⟩

/-- Claim C2, failing input: the group c2T carries both known channels
"ph" and "ub", but the returned table only holds the summary columns of
the alphabetically last channel "ub": each loop iteration overwrites
final_global_df with a fresh merge of global_df, discarding the previous
channel's columns. -/
theorem ptm_matching_keeps_last_channel_only :
    ptmChannels ["global", "ph", "ub"] c2T = ["ph", "ub"] ∧
    ptm_matching (Frac.ofInt 1) ["global", "ph", "ub"] c2T =
      .ok (some ⟨[mkPeak "global" "c1" "g1" 10 8 12], [("ub", [(1, "u1")])]⟩) ∧
    ¬ ("ph" ∈ ([("ub", [(1, "u1")])] : List (String × List (ℕ × String))).map Prod.fst) := by
  decide

/-- Counterexample to claim C8: no channel peak matches the narrow
global peak c8g1 (its interval [0,1] is disjoint from the channel
peak's [9,11]), yet its output row carries match count 1 and id "p1",
inherited from the same-key companion c8g2 through the groupby on
(grouping key, apex, condition). -/
theorem chanCol_same_key_pollution_cex :
    ptm_eval (Frac.ofInt 1) c8g1 (some c8p) = 0 ∧
    condChanRows c8T "ph" c8g1.condition = [c8p] ∧
    chanCol (Frac.ofInt 1) c8T [c8g1, c8g2] "ph" = [(1, "p1"), (1, "p1")] ∧
    ¬ ((1 : ℕ), "p1") = ((0 : ℕ), "") := by
  decide

/-- Witness for the amended claim C8 at a concrete input. -/
theorem chanCol_zero_when_key_unmatched_witness :
    (chanCol (Frac.ofInt 1) c8wT [c8wG] "ph").get? 0 = some (0, "") :=
  chanCol_zero_when_key_unmatched (Frac.ofInt 1) c8wT [c8wG] "ph" 0 c8wG
    (by decide) (by decide)

/-- Witness for claim C9 at a concrete input. -/
theorem no_global_rows_skips_group_witness :
    ptm_matching (Frac.ofInt 1) ["global", "ph"] c9T = .ok none ∧
    matching_i (Frac.ofInt 1) ["global", "ph"] ["c1"] c9T = .ok none ∧
    concatContribs ([some [[(some 0 : Option ℕ)]]] ++ none :: []) =
      concatContribs ([some [[(some 0 : Option ℕ)]]] ++ []) := by
  have h := no_global_rows_skips_group (Frac.ofInt 1) ["global", "ph"] ["c1"] c9T
    (by decide)
  exact ⟨h.1, h.2.1, h.2.2 [some [[(some 0 : Option ℕ)]]] []⟩

/-! ### The executable pair computation denotes the rational one -/

theorem fsum_den_ne (l : List Frac) (h : ∀ x ∈ l, x.den ≠ 0) : (fsum l).den ≠ 0 := by
  induction l with
  | nil => simp [fsum, Frac.ofInt]
  | cons x xs ih =>
    simp only [fsum, List.foldr_cons, Frac.add]
    exact mul_ne_zero (h x (List.mem_cons_self _ _))
      (ih (fun y hy => h y (List.mem_cons_of_mem _ hy)))

theorem fsum_val (l : List Frac) (h : ∀ x ∈ l, x.den ≠ 0) :
    (fsum l).val = (l.map Frac.val).sum := by
  induction l with
  | nil => simp [fsum, Frac.ofInt, Frac.val]
  | cons x xs ih =>
    have hx := h x (List.mem_cons_self _ _)
    have hxs : ∀ y ∈ xs, y.den ≠ 0 := fun y hy => h y (List.mem_cons_of_mem _ hy)
    have hden : (fsum xs).den ≠ 0 := fsum_den_ne xs hxs
    simp only [fsum, List.foldr_cons] at *
    rw [Frac.val_add _ _ hx hden, ih hxs, List.map_cons, List.sum_cons]

theorem filterMap_id_map_val (path : List (Option Frac)) :
    (path.map (Option.map Frac.val)).filterMap id =
      (path.filterMap id).map Frac.val := by
  induction path with
  | nil => rfl
  | cons s rest ih =>
    cases s <;> simp [ih]

theorem path_mean_distF_val (t : Frac) (path : List (Option Frac))
    (hp : ∀ x : Frac, some x ∈ path → x.den ≠ 0) :
    (path_mean_distF t path).map Frac.val =
      path_mean_dist t.val (path.map (Option.map Frac.val)) := by
  simp only [path_mean_distF, path_mean_dist, filterMap_id_map_val, List.map_map]
  by_cases hpres : path.filterMap id = []
  · have hall : ∀ s ∈ path, s = none := by
      intro s hs
      cases s with
      | none => rfl
      | some x =>
        exfalso
        have : x ∈ path.filterMap id := by
          rw [List.mem_filterMap]
          exact ⟨some x, hs, rfl⟩
        rw [hpres] at this
        simp at this
    apply List.map_congr_left
    intro s hs
    rw [hall s hs]
    simp only [Function.comp_apply, Option.map_none']
    rw [Frac.val_mul]
    ring
  · have hpden : ∀ x ∈ path.filterMap id, x.den ≠ 0 := by
      intro x hx
      rw [List.mem_filterMap] at hx
      rcases hx with ⟨s, hs, hsx⟩
      cases s with
      | none => simp at hsx
      | some y =>
        simp only [id, Option.some.injEq] at hsx
        exact hsx ▸ hp y hs
    have hlen : (path.filterMap id).length ≠ 0 := by
      simpa [List.length_eq_zero] using hpres
    have hm : ((fsum (path.filterMap id)).div
        (Frac.ofInt (path.filterMap id).length)).val =
        ((path.filterMap id).map Frac.val).sum / ((path.filterMap id).length : ℚ) := by
      rw [Frac.val_div, fsum_val _ hpden, Frac.val_ofInt]
      norm_num
    have hmden : ((fsum (path.filterMap id)).div
        (Frac.ofInt (path.filterMap id).length)).den ≠ 0 := by
      simp only [Frac.div, Frac.ofInt]
      apply mul_ne_zero (fsum_den_ne _ hpden)
      exact_mod_cast hlen
    apply List.map_congr_left
    intro s hs
    cases s with
    | none =>
      simp only [Function.comp_apply, Option.map_none']
      rw [Frac.val_mul]
      ring
    | some x =>
      simp only [Function.comp_apply, Option.map_some']
      rw [Frac.val_mul, Frac.val_sub _ _ (hp x hs) hmden, hm]
      simp only [List.length_map]
      ring

theorem path_mean_distF_den_ne (t : Frac) (path : List (Option Frac))
    (ht : t.den ≠ 0) (hp : ∀ x : Frac, some x ∈ path → x.den ≠ 0) :
    ∀ y ∈ path_mean_distF t path, y.den ≠ 0 := by
  intro y hy
  simp only [path_mean_distF, List.mem_map] at hy
  rcases hy with ⟨s, hs, rfl⟩
  cases s with
  | none =>
    simp only [Frac.mul]
    exact mul_ne_zero ht ht
  | some x =>
    simp only [Frac.mul, Frac.sub, Frac.div, Frac.ofInt]
    apply mul_ne_zero <;>
      exact mul_ne_zero (hp x hs)
        (by
          by_cases hpres : path.filterMap id = []
          · exfalso
            have : x ∈ path.filterMap id := by
              rw [List.mem_filterMap]
              exact ⟨some x, hs, rfl⟩
            rw [hpres] at this
            simp at this
          · apply mul_ne_zero
            · apply fsum_den_ne
              intro z hz
              rw [List.mem_filterMap] at hz
              rcases hz with ⟨s, hs2, hsz⟩
              cases s with
              | none => simp at hsz
              | some w =>
                simp only [id, Option.some.injEq] at hsz
                exact hsz ▸ hp w hs2
            · have : (path.filterMap id).length ≠ 0 := by
                simpa [List.length_eq_zero] using hpres
              exact_mod_cast this)

/-- The score computed on the pair representation denotes the rational
path_score of the denoted path (the float computation the source runs,
read as exact arithmetic). -/
theorem path_scoreF_val (t : Frac) (path : List (Option Frac))
    (hne : path ≠ []) (ht : t.den ≠ 0)
    (hp : ∀ x : Frac, some x ∈ path → x.den ≠ 0) :
    (path_scoreF t path).val = path_score t.val (path.map (Option.map Frac.val)) := by
  have hdval := path_mean_distF_val t path hp
  have hdden := path_mean_distF_den_ne t path ht hp
  have hdlen : (path_mean_distF t path).length = path.length := by
    simp [path_mean_distF]
  have hlen0 : path.length ≠ 0 := by
    simpa [List.length_eq_zero] using hne
  have hvden : ((fsum (path_mean_distF t path)).div
      (Frac.ofInt (path_mean_distF t path).length)).den ≠ 0 := by
    simp only [Frac.div, Frac.ofInt]
    apply mul_ne_zero (fsum_den_ne _ hdden)
    rw [hdlen]
    exact_mod_cast hlen0
  simp only [path_scoreF, path_score]
  rw [Frac.val_div, Frac.val_add _ _ hvden (by simp [Frac.ofInt]), Frac.val_div,
    fsum_val _ hdden, Frac.val_ofInt, Frac.val_ofInt, hdval, hdlen]
  have hrlen : (path_mean_dist t.val (path.map (Option.map Frac.val))).length =
      path.length := by
    simp [path_mean_dist]
  rw [hrlen]
  push_cast
  ring
